import Mathlib

/-!
# Verification of the snips-nlu orchestration and resolution layer

Shallow embedding of the engine/entity code of the repository:

* `Entity.from_yaml` (src/snips_nlu/dataset/entity.py) — eager validation of
  declarative entity definitions.
* `NLUEngineConfig.to_dict` / `from_dict` (src/snips_nlu/pipeline/configs/nlu_engine.py).
* The mock/test parser units of src/snips_nlu/tests (utils.py, test_nlu_engine.py),
  which pin down the behaviour of the engine-level merge, retraining and
  persistence logic.
* The engine orchestration itself (fit / parse / get_intents / get_slots /
  persist / from_path) is not shipped under src/; those parts are modelled
  from the spec, with each such definition marked `Modelled from the spec:`.
-/

/-! ## Entity data model (src/snips_nlu/dataset/entity.py) -/

/-- One value of an entity's `values:` YAML list: a plain string, a list of
strings (canonical value followed by synonyms), or any other YAML object. -/
inductive YamlVal where
  | s (str : String)
  | l (items : List String)
  | other
deriving DecidableEq, Repr

/-- The Python dict obtained from the YAML definition of an entity, restricted
to the keys `Entity.from_yaml` reads.  A missing key is `none`; the `values`
key defaults to the empty list (`yaml_dict.get("values", [])`). -/
structure EntityYamlDict where
  type : Option String
  name : Option String
  automatically_extensible : Option Bool
  use_synonyms : Option Bool
  matching_strictness : Option ℚ
  values : List YamlVal
deriving DecidableEq, Repr

/-- `EntityUtterance`: one canonical value plus its synonyms. -/
structure EntityUtterance where
  value : String
  synonyms : List String
deriving DecidableEq, Repr

/-- `EntityUtterance.variations = [self.value] + self.synonyms`. -/
def EntityUtterance.variations (u : EntityUtterance) : List String :=
  u.value :: u.synonyms

/-- `Entity`: name, utterances, and the three custom-entity attributes. -/
structure Entity where
  name : String
  utterances : List EntityUtterance
  automatically_extensible : Bool
  use_synonyms : Bool
  matching_strictness : ℚ
deriving DecidableEq, Repr

/-- The exceptions `Entity.from_yaml` can raise.  The first three are the
three `EntityFormatError` raise sites; `indexError` is the Python
`IndexError` raised by `entity_value[0]` on an empty list value. -/
inductive EntityError where
  | wrongType (t : String)
  | missingName
  | badValueType
  | indexError
deriving DecidableEq, Repr

/-- Whether the raised exception is an `EntityFormatError`. -/
def EntityError.isFormatError : EntityError → Bool
  | .indexError => false
  | _ => true

/-- One iteration of the `for entity_value in yaml_dict.get("values", [])`
loop: a list becomes `EntityUtterance(entity_value[0], entity_value[1:])`
(`IndexError` when empty), a string becomes `EntityUtterance(entity_value)`,
anything else raises `EntityFormatError`. -/
def utteranceOfYamlVal : YamlVal → Except EntityError EntityUtterance
  | .l [] => .error .indexError
  | .l (v :: syns) => .ok ⟨v, syns⟩
  | .s v => .ok ⟨v, []⟩
  | .other => .error .badValueType

/-- The `for entity_value in yaml_dict.get("values", [])` loop: converts the
values in order, stopping at the first failing one. -/
def utterancesOfYamlVals : List YamlVal → Except EntityError (List EntityUtterance)
  | [] => .ok []
  | v :: vs =>
    match utteranceOfYamlVal v with
    | .error e => .error e
    | .ok u =>
      match utterancesOfYamlVals vs with
      | .error e => .error e
      | .ok us => .ok (u :: us)

/-- The part of `Entity.from_yaml` after the `type` check: reads the name
(`EntityFormatError` when the `name` key is missing or falsy, i.e. empty),
converts the values, and builds the entity with the documented defaults. -/
def entityFromYamlChecked (d : EntityYamlDict) : Except EntityError Entity :=
  match d.name with
  | none => .error .missingName
  | some n =>
    if n = "" then .error .missingName
    else
      match utterancesOfYamlVals d.values with
      | .error e => .error e
      | .ok us =>
        .ok { name := n
              utterances := us
              automatically_extensible := d.automatically_extensible.getD true
              use_synonyms := d.use_synonyms.getD true
              matching_strictness := d.matching_strictness.getD 1 }

/-- `Entity.from_yaml`: first the `type` tag check (`if object_type and
object_type != "entity"` — an error only when the tag is present, truthy and
different from `"entity"`), then the rest of the construction. -/
def entityFromYaml (d : EntityYamlDict) : Except EntityError Entity :=
  match d.type with
  | some t =>
    if t ≠ "" ∧ t ≠ "entity" then .error (.wrongType t)
    else entityFromYamlChecked d
  | none => entityFromYamlChecked d

example :
    entityFromYaml
      { type := some "entity", name := some "city",
        automatically_extensible := some false, use_synonyms := some false,
        matching_strictness := some (8/10),
        values := [.s "london", .l ["new york", "big apple"],
                   .l ["paris", "city of lights"]] } =
    .ok { name := "city",
          utterances := [⟨"london", []⟩, ⟨"new york", ["big apple"]⟩,
                         ⟨"paris", ["city of lights"]⟩],
          automatically_extensible := false, use_synonyms := false,
          matching_strictness := 8/10 } := by
  rfl

/-! ## Entity resolution (spec §4.1)

The custom-entity resolution code is not shipped under src/; it is modelled
from the spec and pinned by the tests
`test_synonyms_should_point_to_base_value` and
`test_synonyms_should_not_collide_when_remapped_to_base_value`. -/

/-- Modelled from the spec: build-time construction of the variation →
canonical-value table of a custom entity (`CustomEntityParser`, absent from
src/).  Every variation string of every utterance maps to that utterance's
canonical value; distinct raw strings are kept as distinct keys (no
accent/case normalization). -/
def variationTable (utterances : List EntityUtterance) : List (String × String) :=
  utterances.flatMap fun u => u.variations.map fun v => (v, u.value)

/-- Modelled from the spec: `resolve(raw_value, entity)` for a custom entity
with `use_synonyms=true` — exact lookup of the raw string in the variation
table, falling back to the raw string on no match. -/
def resolveValue (table : List (String × String)) (raw : String) : String :=
  (table.lookup raw).getD raw

/-- The entity of `test_synonyms_should_not_collide_when_remapped_to_base_value`:
canonical "a" with synonym "favorïte", canonical "b" with synonym "favorite". -/
def favoriteEntityUtterances : List EntityUtterance :=
  [⟨"a", ["favorïte"]⟩, ⟨"b", ["favorite"]⟩]

/-- `v` is declared as a variation for canonical value `c`, and every
utterance declaring `v` declares it for the same canonical value `c`. -/
def DeclaredFor (utterances : List EntityUtterance) (v c : String) : Prop :=
  (∃ u ∈ utterances, v ∈ u.variations ∧ u.value = c) ∧
    ∀ u ∈ utterances, v ∈ u.variations → u.value = c

example : resolveValue (variationTable favoriteEntityUtterances) "favorite" = "b" := by rfl
example : resolveValue (variationTable favoriteEntityUtterances) "favorïte" = "a" := by rfl
example : resolveValue (variationTable favoriteEntityUtterances) "nope" = "nope" := by rfl

/-! ## Intent classification results and slots (snips_nlu.result) -/

/-- `intent_classification_result(intent_name, probability)`: the intent name
(`none` is the no-intent sentinel) and its probability. -/
structure IntentClassificationResult where
  intentName : Option String
  probability : ℚ
deriving DecidableEq, Repr

/-- `unresolved_slot(match_range, value, entity, slot_name)`. -/
structure Slot where
  rangeStart : Nat
  rangeEnd : Nat
  value : String
  entity : String
  slot_name : String
deriving DecidableEq, Repr

/-- `extraction_result(intent, slots)`: one entry of the ranked list returned
by `parse` with `top_n`. -/
structure ExtractionResult where
  intent : IntentClassificationResult
  slots : List Slot
deriving DecidableEq, Repr

/-! ## Ensemble merge (spec §4.2, top_n mode)

The engine's `get_intents` / `_parse_top_intents` code is not shipped under
src/; it is modelled from the spec and pinned by
`test_should_parse_top_intents` and `test_should_get_intents`. -/

/-- A parser unit's behaviour on one fixed input text: its `get_intents`
ranked list and its `get_slots` function. -/
structure TopParser where
  getIntents : List IntentClassificationResult
  getSlots : String → List Slot

/-- The distinct elements of a list, keeping the first occurrence of each
(the key order of a Python dict built by repeated insertion). -/
def firstOccsAux (seen : List (Option String)) :
    List (Option String) → List (Option String)
  | [] => []
  | a :: l =>
    if a ∈ seen then firstOccsAux seen l
    else a :: firstOccsAux (a :: seen) l

/-- The distinct elements of a list, keeping the first occurrence of each. -/
def firstOccs (l : List (Option String)) : List (Option String) :=
  firstOccsAux [] l

/-- All probabilities reported for intent name `n` across the parsers, in
parser priority order. -/
def probsFor (parsers : List TopParser) (n : Option String) : List ℚ :=
  parsers.flatMap fun p =>
    (p.getIntents.filter (·.intentName = n)).map (·.probability)

/-- Modelled from the spec: the merged probability of an intent name is the
maximum probability seen for it across all parsers (0 when never seen). -/
def maxProbFor (parsers : List TopParser) (n : Option String) : ℚ :=
  match probsFor parsers n with
  | [] => 0
  | q :: qs => qs.foldl max q

/-- Stable descending insertion: `x` goes before the first element whose
probability is at most `x`'s. -/
def insertDesc (x : IntentClassificationResult) :
    List IntentClassificationResult → List IntentClassificationResult
  | [] => [x]
  | y :: ys =>
    if y.probability ≤ x.probability then x :: y :: ys else y :: insertDesc x ys

/-- Stable sort, descending by probability (Python's stable `sorted` with key
`-probability`): ties keep the original order. -/
def sortDescByProb (l : List IntentClassificationResult) :
    List IntentClassificationResult :=
  l.foldr insertDesc []

/-- Modelled from the spec: the engine's `get_intents` — for each distinct
intent name across all parsers' lists (and the no-intent sentinel), in first
appearance order over parser priority, take the maximum probability across
parsers, then stable-sort descending by probability. -/
def mergedIntents (parsers : List TopParser) : List IntentClassificationResult :=
  sortDescByProb
    ((firstOccs (parsers.flatMap fun p => p.getIntents.map (·.intentName))).map
      fun n => ⟨n, maxProbFor parsers n⟩)

/-- Modelled from the spec: the engine's `get_slots(text, intent)` — slots
from whichever parser first yields a non-empty slot list for that intent, in
parser priority order (empty when every parser yields no slot). -/
def engineGetSlots (parsers : List TopParser) (intent : String) : List Slot :=
  match parsers.find? fun p => !(p.getSlots intent).isEmpty with
  | some p => p.getSlots intent
  | none => []

/-- The slot-attribution rule as the spec words it: slots come from the first
parser whose ranked `get_intents` list contained the winning (merged maximum)
probability for that intent. -/
def winningParserSlots (parsers : List TopParser) (intent : String)
    (winningProb : ℚ) : List Slot :=
  match parsers.find? fun p =>
      p.getIntents.any fun r =>
        r.intentName = some intent && r.probability = winningProb with
  | some p => p.getSlots intent
  | none => []

/-- Modelled from the spec: `parse(text, top_n)` — merged ranked intents,
truncated to `top_n`, each non-sentinel intent annotated with the engine's
`get_slots` result for it, the no-intent sentinel with an empty slot list. -/
def parseTopIntents (parsers : List TopParser) (topN : Nat) :
    List ExtractionResult :=
  (mergedIntents parsers).take topN |>.map fun r =>
    match r.intentName with
    | none => ⟨r, []⟩
    | some name => ⟨r, engineGetSlots parsers name⟩

/-- `parse(text, top_n)` with the slot attribution stated by the claim: each
retained intent annotated with the slots of the parser that produced its
winning probability. -/
def parseTopIntentsClaimed (parsers : List TopParser) (topN : Nat) :
    List ExtractionResult :=
  (mergedIntents parsers).take topN |>.map fun r =>
    match r.intentName with
    | none => ⟨r, []⟩
    | some name => ⟨r, winningParserSlots parsers name r.probability⟩

/-! ### The two parsers of `test_should_parse_top_intents` -/

/-- `FirstIntentParser` of `test_should_parse_top_intents`, on the input text
"foo bar ban". -/
def firstIntentParser : TopParser where
  getIntents :=
    [⟨some "intent1", mkRat 1 2⟩, ⟨some "intent2", mkRat 3 10⟩,
     ⟨none, mkRat 3 20⟩, ⟨some "intent3", mkRat 1 20⟩]
  getSlots intent :=
    if intent = "intent2" then [⟨0, 3, "foo", "entity2", "slot2"⟩] else []

/-- `SecondIntentParser` of `test_should_parse_top_intents`, on the input
text "foo bar ban". -/
def secondIntentParser : TopParser where
  getIntents :=
    [⟨some "intent2", mkRat 3 5⟩, ⟨some "intent1", mkRat 1 5⟩,
     ⟨none, mkRat 3 20⟩, ⟨some "intent3", mkRat 1 20⟩]
  getSlots intent :=
    if intent = "intent1" then [⟨0, 3, "foo", "entity1", "slot1"⟩]
    else if intent = "intent2" then [⟨8, 11, "ban", "entity2", "slot2"⟩]
    else []

/-- The exact ranked result `test_should_parse_top_intents` asserts for
`parse("foo bar ban", top_n=3)`. -/
def expectedTopResults : List ExtractionResult :=
  [⟨⟨some "intent2", mkRat 3 5⟩, [⟨0, 3, "foo", "entity2", "slot2"⟩]⟩,
   ⟨⟨some "intent1", mkRat 1 2⟩, [⟨0, 3, "foo", "entity1", "slot1"⟩]⟩,
   ⟨⟨none, mkRat 3 20⟩, []⟩]

example :
    parseTopIntents [firstIntentParser, secondIntentParser] 3 =
      expectedTopResults := by decide

/-! ## Parsing results and sequential parse (spec §4.2, single-result mode) -/

/-- `parsing_result(input, intent, slots)`; `empty_result(text)` is the
result whose intent is the no-intent sentinel. -/
structure ParsingResult where
  input : String
  intent : Option IntentClassificationResult
  slots : List Slot
deriving DecidableEq, Repr

/-- `empty_result(text)`: the "no intent" result for `text`. -/
def emptyResult (text : String) : ParsingResult := ⟨text, none, []⟩

/-- Modelled from the spec: `parse(text)` without `top_n` — consult the
parsers strictly in configured order; the first non-"no intent" result wins
outright; when every parser returns "no intent", return `empty_result(text)`.
Each parser is represented by its `parse` behaviour `String → ParsingResult`. -/
def parseSequential (parsers : List (String → ParsingResult)) (text : String) :
    ParsingResult :=
  match parsers with
  | [] => emptyResult text
  | p :: rest =>
    if (p text).intent.isSome then p text else parseSequential rest text

/-! ## Processing-unit configurations
(src/snips_nlu/pipeline/configs/nlu_engine.py, src/snips_nlu/tests/utils.py) -/

/-- An intent-parser config.  The configs shipped under src/
(`MockIntentParserConfig` and its named subclasses) carry nothing but their
`unit_name` discriminator; their `to_dict` is `{"unit_name": self.unit_name}`
and their `from_dict` rebuilds the registered class of that name. -/
structure ParserConfig where
  unitName : String
deriving DecidableEq, Repr

/-- The dict written by a parser config's `to_dict`. -/
structure ParserConfigDict where
  unit_name : String
deriving DecidableEq, Repr

/-- `MockIntentParserConfig.to_dict`: `{"unit_name": self.unit_name}`. -/
def ParserConfig.toDict (c : ParserConfig) : ParserConfigDict := ⟨c.unitName⟩

/-- Modelled from the spec: `get_processing_unit_config` (absent from src/) —
the registry maps the dict's `unit_name` discriminator to the registered
config class, whose `from_dict` reconstructs the config. -/
def parserConfigFromDict (d : ParserConfigDict) : ParserConfig := ⟨d.unit_name⟩

/-- `NLUEngineConfig`: the ordered list of intent-parser configs. -/
structure NLUEngineConfig where
  intent_parsers_configs : List ParserConfig
deriving DecidableEq, Repr

/-- The dict written by `NLUEngineConfig.to_dict`: the `unit_name`
discriminator (`SnipsNLUEngine.unit_name`, i.e. `"nlu_engine"`) plus the
sub-config dicts. -/
structure EngineConfigDict where
  unit_name : String
  intent_parsers_configs : List ParserConfigDict
deriving DecidableEq, Repr

/-- `NLUEngineConfig.to_dict`. -/
def NLUEngineConfig.toDict (c : NLUEngineConfig) : EngineConfigDict :=
  ⟨"nlu_engine", c.intent_parsers_configs.map ParserConfig.toDict⟩

/-- `NLUEngineConfig.from_dict`: pops the `unit_name` discriminator (the
remaining key is passed to the constructor, which maps
`get_processing_unit_config` over the sub-config dicts). -/
def NLUEngineConfig.fromDict (d : EngineConfigDict) : NLUEngineConfig :=
  ⟨d.intent_parsers_configs.map parserConfigFromDict⟩

/-! ## The engine (spec §4.3): state, fit, parse, persist, load

`SnipsNLUEngine` itself is not shipped under src/; the following definitions
are modelled from the spec, pinned by the serialization and lifecycle tests
of src/snips_nlu/tests/test_nlu_engine.py. -/

/-- A trained intent-parser unit owned by the engine: its `unit_name`, its
observable `fitted` flag, and its trained model, represented extensionally as
the map from input text to the unit's `parse` result (looked up with
`empty_result` as default). -/
structure ParserUnit where
  unitName : String
  fitted : Bool
  model : List (String × ParsingResult)
deriving DecidableEq, Repr

/-- A unit's `parse(text)`: its trained behaviour on `text`. -/
def ParserUnit.parse (u : ParserUnit) (text : String) : ParsingResult :=
  ((u.model.lookup text).getD (emptyResult text))

/-- A dataset-metadata value (opaque to the claims verified here; persisted
and reloaded verbatim). -/
structure DatasetMetadata where
  language_code : String
deriving DecidableEq, Repr

/-- Modelled from the spec: the engine — its declared config, its ordered
intent-parser units (empty until `fit`), and its dataset metadata (`none`
before `fit`). -/
structure Engine where
  config : NLUEngineConfig
  intentParsers : List ParserUnit
  datasetMetadata : Option DatasetMetadata
deriving DecidableEq, Repr

/-- `SnipsNLUEngine(config)`: a fresh, unfit engine. -/
def newEngine (config : NLUEngineConfig) : Engine := ⟨config, [], none⟩

/-- Modelled from the spec: `engine.fitted` — false before any `fit()` call
(no parser units exist yet) and true when every built unit reports fitted. -/
def Engine.fitted (e : Engine) : Bool :=
  !e.intentParsers.isEmpty && e.intentParsers.all (·.fitted)

/-- The errors the engine's inference operations can raise. -/
inductive NLUError where
  | notTrained
deriving DecidableEq, Repr

/-- Modelled from the spec: `engine.parse(text)` (single-result mode) —
raises `NotTrained` when the engine is not fitted, otherwise consults the
parser units sequentially. -/
def Engine.parse (e : Engine) (text : String) : Except NLUError ParsingResult :=
  if !e.fitted then .error .notTrained
  else .ok (parseSequential (e.intentParsers.map ParserUnit.parse) text)

/-- Modelled from the spec: `engine.fit(dataset)` — computes the dataset
metadata and builds one fitted parser unit per configured parser, training
each with the (otherwise unconstrained) training function `train`. -/
def Engine.fit (e : Engine) (metadata : DatasetMetadata)
    (train : ParserConfig → List (String × ParsingResult)) : Engine :=
  { e with
    datasetMetadata := some metadata
    intentParsers :=
      e.config.intent_parsers_configs.map fun c => ⟨c.unitName, true, train c⟩ }

/-! ## Persistence (spec §4.3, §6, §9) -/

/-- The number of occurrences of `n` in `l`. -/
def countOcc (n : String) (l : List String) : Nat :=
  (l.filter fun m => m = n).length

/-- Modelled from the spec: the deterministic name-uniquification pass over
the ordered unit names executed at persist time — the first occurrence of a
name is unsuffixed, the k-th duplicate (k ≥ 2) gets the suffix `_k`.  `seen`
accumulates the names already processed. -/
def uniquifyAux (seen : List String) : List String → List String
  | [] => []
  | n :: rest =>
    let c := countOcc n seen + 1
    (if c = 1 then n else n ++ "_" ++ toString c) :: uniquifyAux (seen ++ [n]) rest

/-- The uniquified directory names for an ordered list of unit names. -/
def uniquifyNames (names : List String) : List String := uniquifyAux [] names

/-- One persisted intent-parser subdirectory: its directory name, the
`unit_name` recorded in its `metadata.json` (always the in-memory unit name,
never the suffixed directory name) and the persisted trained model. -/
structure ParserDirFile where
  dirName : String
  metadataUnitName : String
  model : List (String × ParsingResult)
deriving DecidableEq, Repr

/-- The persisted engine directory: the `nlu_engine.json` descriptor fields
(`config`, `dataset_metadata`, the ordered `intent_parsers` directory-name
list, version stamps elided) plus one subdirectory per parser unit.  The
in-memory byte-array form of `to_byte_array` is the same archive. -/
structure PersistedEngine where
  config : EngineConfigDict
  dataset_metadata : Option DatasetMetadata
  intent_parsers : List String
  parserDirs : List ParserDirFile
deriving DecidableEq, Repr

/-- Modelled from the spec: `engine.persist(path)` — writes the descriptor
with the uniquified parser directory names and one subdirectory per unit,
each subdirectory's metadata keeping the unit's in-memory `unit_name`. -/
def Engine.persist (e : Engine) : PersistedEngine :=
  let names := e.intentParsers.map (·.unitName)
  let dirs := uniquifyNames names
  { config := e.config.toDict
    dataset_metadata := e.datasetMetadata
    intent_parsers := dirs
    parserDirs :=
      (dirs.zip e.intentParsers).map fun (d, u) => ⟨d, u.unitName, u.model⟩ }

/-- The load failure on a missing subdirectory (fails closed). -/
inductive LoadError where
  | missingParserDir (dirName : String)
deriving DecidableEq, Repr

/-- Modelled from the spec: loading one parser unit from its subdirectory —
the unit's name is the `unit_name` of its `metadata.json`, and a loaded unit
reports itself fitted. -/
def loadParserUnit (p : PersistedEngine) (dirName : String) :
    Except LoadError ParserUnit :=
  match p.parserDirs.find? fun f => f.dirName = dirName with
  | some f => .ok ⟨f.metadataUnitName, true, f.model⟩
  | none => .error (.missingParserDir dirName)

/-- Loading the parser units listed in the descriptor, in order, failing
closed at the first missing subdirectory. -/
def loadParserUnits (p : PersistedEngine) :
    List String → Except LoadError (List ParserUnit)
  | [] => .ok []
  | d :: ds =>
    match loadParserUnit p d with
    | .error e => .error e
    | .ok u =>
      match loadParserUnits p ds with
      | .error e => .error e
      | .ok us => .ok (u :: us)

/-- Modelled from the spec: `SnipsNLUEngine.from_path` — reads the
descriptor, reconstructs the config via `NLUEngineConfig.from_dict`, and
loads each parser unit named in the descriptor's `intent_parsers` list,
failing closed when a subdirectory is missing. -/
def engineFromPath (p : PersistedEngine) : Except LoadError Engine :=
  match loadParserUnits p p.intent_parsers with
  | .error e => .error e
  | .ok units =>
    .ok { config := NLUEngineConfig.fromDict p.config
          intentParsers := units
          datasetMetadata := p.dataset_metadata }

/-- `engine.to_byte_array()`: the same archive, in memory. -/
def Engine.toByteArray (e : Engine) : PersistedEngine := e.persist

/-- `SnipsNLUEngine.from_byte_array`. -/
def engineFromByteArray (p : PersistedEngine) : Except LoadError Engine :=
  engineFromPath p

/-! ## Partial retraining (`test_should_retrain_only_non_trained_subunits`) -/

/-- One sub-unit of the composite `TestIntentParser`: its fitted flag and its
fit-call count. -/
structure SubUnitState where
  fitted : Bool
  calls : Nat
deriving DecidableEq, Repr

/-- The composite `TestIntentParser` of
`test_should_retrain_only_non_trained_subunits`, with two sub-units. -/
structure TestIntentParser where
  sub_unit_1 : SubUnitState
  sub_unit_2 : SubUnitState
deriving DecidableEq, Repr

/-- `TestIntentParser.fit(dataset, force_retrain)` (src): with
`force_retrain` both sub-units are marked fitted and their call counts
incremented; without it, only the sub-units not yet fitted are. -/
def TestIntentParser.fit (p : TestIntentParser) (force_retrain : Bool) :
    TestIntentParser :=
  if force_retrain then
    ⟨⟨true, p.sub_unit_1.calls + 1⟩, ⟨true, p.sub_unit_2.calls + 1⟩⟩
  else
    ⟨(if p.sub_unit_1.fitted then p.sub_unit_1 else ⟨true, p.sub_unit_1.calls + 1⟩),
     (if p.sub_unit_2.fitted then p.sub_unit_2 else ⟨true, p.sub_unit_2.calls + 1⟩)⟩

/-- `TestIntentParser.fitted` (src): the conjunction of the sub-units'
fitted flags. -/
def TestIntentParser.fitted (p : TestIntentParser) : Bool :=
  p.sub_unit_1.fitted && p.sub_unit_2.fitted

/-- Modelled from the spec: the part of `engine.fit(dataset, force_retrain)`
that drives the intent parsers — it invokes each configured parser's
`fit(dataset, force_retrain)`. -/
def engineFitParsers (parsers : List TestIntentParser) (force_retrain : Bool) :
    List TestIntentParser :=
  parsers.map (·.fit force_retrain)

/-! ## Theorems -/

lemma utterancesOfYamlVals_ok (vs : List YamlVal)
    (h : ∀ v ∈ vs, v ≠ YamlVal.l [] ∧ v ≠ YamlVal.other) :
    ∃ us, utterancesOfYamlVals vs = .ok us := by
  induction vs with
  | nil => exact ⟨[], rfl⟩
  | cons v vs ih =>
    obtain ⟨h1, h2⟩ := h v (List.mem_cons_self v vs)
    obtain ⟨us, hus⟩ := ih fun w hw => h w (List.mem_cons_of_mem v hw)
    cases v with
    | s str => exact ⟨⟨str, []⟩ :: us, by simp [utterancesOfYamlVals, utteranceOfYamlVal, hus]⟩
    | l items =>
      cases items with
      | nil => exact absurd rfl h1
      | cons x xs =>
        exact ⟨⟨x, xs⟩ :: us, by simp [utterancesOfYamlVals, utteranceOfYamlVal, hus]⟩
    | other => exact absurd rfl h2

lemma utterancesOfYamlVals_other (vs : List YamlVal)
    (hne : ∀ v ∈ vs, v ≠ YamlVal.l []) (ho : YamlVal.other ∈ vs) :
    utterancesOfYamlVals vs = .error .badValueType := by
  induction vs with
  | nil => cases ho
  | cons v vs ih =>
    cases v with
    | other => rfl
    | s str =>
      have ho' : YamlVal.other ∈ vs := by
        rcases List.mem_cons.mp ho with h | h
        · cases h
        · exact h
      have := ih (fun w hw => hne w (List.mem_cons_of_mem _ hw)) ho'
      simp [utterancesOfYamlVals, utteranceOfYamlVal, this]
    | l items =>
      cases items with
      | nil => exact absurd rfl (hne _ (List.mem_cons_self _ _))
      | cons x xs =>
        have ho' : YamlVal.other ∈ vs := by
          rcases List.mem_cons.mp ho with h | h
          · cases h
          · exact h
        have := ih (fun w hw => hne w (List.mem_cons_of_mem _ hw)) ho'
        simp [utterancesOfYamlVals, utteranceOfYamlVal, this]

lemma utterancesOfYamlVals_ne_wrongType (vs : List YamlVal) (t : String) :
    utterancesOfYamlVals vs ≠ .error (.wrongType t) := by
  induction vs with
  | nil => simp [utterancesOfYamlVals]
  | cons v vs ih =>
    cases v with
    | s str =>
      simp only [utterancesOfYamlVals, utteranceOfYamlVal]
      cases h : utterancesOfYamlVals vs with
      | error e => simpa [h] using fun he => ih (by rw [h, he])
      | ok us => simp
    | l items =>
      cases items with
      | nil => simp [utterancesOfYamlVals, utteranceOfYamlVal]
      | cons x xs =>
        simp only [utterancesOfYamlVals, utteranceOfYamlVal]
        cases h : utterancesOfYamlVals vs with
        | error e => simpa [h] using fun he => ih (by rw [h, he])
        | ok us => simp
    | other => simp [utterancesOfYamlVals, utteranceOfYamlVal]

lemma entityFromYaml_cases (d : EntityYamlDict) :
    entityFromYaml d = entityFromYamlChecked d ∨
      ∃ t, d.type = some t ∧ t ≠ "" ∧ t ≠ "entity" ∧
        entityFromYaml d = .error (.wrongType t) := by
  cases ht : d.type with
  | none => left; simp [entityFromYaml, ht]
  | some t =>
    by_cases hc : t ≠ "" ∧ t ≠ "entity"
    · right; exact ⟨t, rfl, hc.1, hc.2, by simp [entityFromYaml, ht, hc]⟩
    · left; simp [entityFromYaml, ht, hc]

lemma entityFromYamlChecked_ne_wrongType (d : EntityYamlDict) (t : String) :
    entityFromYamlChecked d ≠ .error (.wrongType t) := by
  unfold entityFromYamlChecked
  cases hn : d.name with
  | none => simp
  | some n =>
    by_cases h0 : n = ""
    · simp [h0]
    · cases hu : utterancesOfYamlVals d.values with
      | error e =>
        simpa [h0, hu] using fun he => utterancesOfYamlVals_ne_wrongType d.values t (by rw [hu, he])
      | ok us => simp [h0, hu]

/-- C8: `Entity.from_yaml` raises `EntityFormatError` eagerly at construction
time exactly when the definition has a truthy type tag different from
"entity", a missing or empty name, or an entity value that is neither a
string nor a list; a well-formed definition is fully validated at
construction (no such error is deferred to fit or parse time).  The side
condition excludes empty-list values, whose failure is Python's `IndexError`,
not `EntityFormatError`. -/
theorem entityFromYaml_formatError_iff (d : EntityYamlDict)
    (hnl : ∀ v ∈ d.values, v ≠ YamlVal.l []) :
    (∃ e, entityFromYaml d = .error e ∧ e.isFormatError = true) ↔
      ((∃ t, d.type = some t ∧ t ≠ "" ∧ t ≠ "entity") ∨
        d.name = none ∨ d.name = some "" ∨ YamlVal.other ∈ d.values) := by
  constructor
  · intro ⟨e, he, _⟩
    by_contra hno
    push_neg at hno
    obtain ⟨htype, hname1, hname2, hother⟩ := hno
    have hchecked : entityFromYaml d = entityFromYamlChecked d := by
      rcases entityFromYaml_cases d with h | ⟨t, ht, h1, h2, _⟩
      · exact h
      · exact absurd (htype t ht h1) h2
    obtain ⟨us, hus⟩ :=
      utterancesOfYamlVals_ok d.values fun v hv =>
        ⟨hnl v hv, fun hveq => hother (hveq ▸ hv)⟩
    cases hn : d.name with
    | none => exact hname1 hn
    | some n =>
      have hne : n ≠ "" := fun h0 => hname2 (by rw [hn, h0])
      rw [hchecked] at he
      simp [entityFromYamlChecked, hn, hne, hus] at he
  · intro h
    rcases entityFromYaml_cases d with hchecked | ⟨t, _, _, _, herr⟩
    · rw [hchecked]
      rcases h with ⟨t, ht, h1, h2⟩ | hn | hn | ho
      · have : entityFromYaml d = .error (.wrongType t) := by
          simp [entityFromYaml, ht, h1, h2]
        rw [hchecked] at this
        exact ⟨.wrongType t, this, rfl⟩
      · exact ⟨.missingName, by simp [entityFromYamlChecked, hn], rfl⟩
      · exact ⟨.missingName, by simp [entityFromYamlChecked, hn], rfl⟩
      · cases hn : d.name with
        | none => exact ⟨.missingName, by simp [entityFromYamlChecked, hn], rfl⟩
        | some n =>
          by_cases h0 : n = ""
          · exact ⟨.missingName, by simp [entityFromYamlChecked, hn, h0], rfl⟩
          · refine ⟨.badValueType, ?_, rfl⟩
            have := utterancesOfYamlVals_other d.values hnl ho
            simp [entityFromYamlChecked, hn, h0, this]
    · exact ⟨.wrongType t, herr, rfl⟩

/-- Witness for C8: the dict `{type: "entity", name: missing, values:
["london"]}` satisfies the empty-list side condition and is rejected with an
`EntityFormatError` (missing name). -/
theorem entityFromYaml_formatError_iff_witness :
    ∃ e, entityFromYaml
        { type := some "entity", name := none,
          automatically_extensible := none, use_synonyms := none,
          matching_strictness := none, values := [.s "london"] } = .error e ∧
      e.isFormatError = true :=
  (entityFromYaml_formatError_iff _ (by decide)).mpr (Or.inr (Or.inl rfl))

/-- C10: the type-tag `EntityFormatError` is raised if and only if the
`type` key is present with a truthy (non-empty) value different from
`"entity"`; in particular a definition dict lacking the `type` key is never
rejected for its type tag. -/
theorem entityFromYaml_wrongType_iff (d : EntityYamlDict) (t' : String) :
    entityFromYaml d = .error (.wrongType t') ↔
      (d.type = some t' ∧ t' ≠ "" ∧ t' ≠ "entity") := by
  constructor
  · intro he
    rcases entityFromYaml_cases d with hch | ⟨t, ht, h1, h2, herr⟩
    · rw [hch] at he
      exact absurd he (entityFromYamlChecked_ne_wrongType d t')
    · rw [herr] at he
      injection he with h
      injection h with h
      subst h
      exact ⟨ht, h1, h2⟩
  · intro ⟨ht, h1, h2⟩
    simp [entityFromYaml, ht, h1, h2]

/-- Witness for C10: a declared truthy type tag `"intent"` is rejected with
the type-tag format error. -/
theorem entityFromYaml_wrongType_iff_witness :
    entityFromYaml
        { type := some "intent", name := some "city",
          automatically_extensible := none, use_synonyms := none,
          matching_strictness := none, values := [] } =
      .error (.wrongType "intent") :=
  (entityFromYaml_wrongType_iff _ "intent").mpr ⟨rfl, by decide, by decide⟩

lemma lookup_map_const (ws : List String) (cval v : String) :
    (ws.map fun w => (w, cval)).lookup v =
      if v ∈ ws then some cval else none := by
  induction ws with
  | nil => simp
  | cons w ws ih =>
    by_cases h : v = w
    · simp [List.lookup, h]
    · simp [List.lookup, h, ih, List.mem_cons, beq_false_of_ne h]

lemma lookup_append_pairs (l₁ l₂ : List (String × String)) (v : String) :
    (l₁ ++ l₂).lookup v =
      match l₁.lookup v with
      | some c => some c
      | none => l₂.lookup v := by
  induction l₁ with
  | nil => simp [List.lookup]
  | cons p l₁ ih =>
    by_cases h : v = p.1
    · simp [List.lookup, h]
    · simp [List.lookup, beq_false_of_ne h, ih]

lemma variationTable_lookup (utts : List EntityUtterance) (v c : String)
    (h : DeclaredFor utts v c) :
    (variationTable utts).lookup v = some c := by
  induction utts with
  | nil => obtain ⟨⟨u, hu, _⟩, _⟩ := h; cases hu
  | cons u rest ih =>
    have htable : variationTable (u :: rest) =
        (u.variations.map fun w => (w, u.value)) ++ variationTable rest := by
      simp [variationTable]
    rw [htable, lookup_append_pairs]
    by_cases hv : v ∈ u.variations
    · have huc : u.value = c := h.2 u (List.mem_cons_self _ _) hv
      rw [lookup_map_const]
      simp [hv, huc]
    · rw [lookup_map_const]
      simp only [hv, if_false]
      have hrest : DeclaredFor rest v c := by
        obtain ⟨⟨u', hu', hv', hc'⟩, hall⟩ := h
        refine ⟨⟨u', ?_, hv', hc'⟩, fun w hw hvw => hall w (List.mem_cons_of_mem _ hw) hvw⟩
        rcases List.mem_cons.mp hu' with rfl | h'
        · exact absurd hv' hv
        · exact h'
      exact ih hrest

/-- C2: synonym resolution is an exact, byte-level lookup.  Concretely, for
the entity declaring canonical "a" with synonym "favorïte" and canonical "b"
with synonym "favorite", resolving "favorite" yields "b" and resolving
"favorïte" yields "a"; in general every variation string declared (only) for
canonical value `c` resolves to `c`, so byte-distinct declared variations
never collapse onto a canonical value they were not declared for. -/
theorem resolveValue_synonym_distinct :
    (resolveValue (variationTable favoriteEntityUtterances) "favorite" = "b" ∧
      resolveValue (variationTable favoriteEntityUtterances) "favorïte" = "a") ∧
    ∀ (utts : List EntityUtterance) (v c : String),
      DeclaredFor utts v c → resolveValue (variationTable utts) v = c := by
  refine ⟨⟨rfl, rfl⟩, fun utts v c h => ?_⟩
  rw [resolveValue, variationTable_lookup utts v c h]
  rfl

/-- Witness for C2: the general resolution law applied to the concrete
"favorite"/"favorïte" entity. -/
theorem resolveValue_synonym_distinct_witness :
    resolveValue (variationTable favoriteEntityUtterances) "favorite" = "b" :=
  resolveValue_synonym_distinct.2 favoriteEntityUtterances "favorite" "b"
    ⟨⟨⟨"b", ["favorite"]⟩, by decide, by decide, rfl⟩, by decide⟩

/-- The ranked result the claim asserts for `parse("foo bar ban", top_n=3)`:
intent2 annotated with the slots of the parser that produced its winning
probability (the second parser), intent1 with the first parser's slots
(which are empty for intent1), the sentinel with none. -/
def claimAssertedTopResults : List ExtractionResult :=
  [⟨⟨some "intent2", mkRat 3 5⟩, [⟨8, 11, "ban", "entity2", "slot2"⟩]⟩,
   ⟨⟨some "intent1", mkRat 1 2⟩, []⟩,
   ⟨⟨none, mkRat 3 20⟩, []⟩]

/-- Counterexample for C1: on the exact input of
`test_should_parse_top_intents`, the winning-probability slot attribution
stated by the claim produces `claimAssertedTopResults`, which differs from
the result the repository's test asserts (`expectedTopResults`): the test
annotates intent2 with the first parser's slots and intent1 with the second
parser's. -/
theorem parseTopIntents_claim_false :
    parseTopIntentsClaimed [firstIntentParser, secondIntentParser] 3 =
        claimAssertedTopResults ∧
      claimAssertedTopResults ≠ expectedTopResults := by
  constructor
  · decide
  · decide

/-- C1 (amended): merging takes, per distinct intent name (and the
no-intent sentinel), the maximum probability across parsers, sorts
descending with ties broken by parser priority, truncates to `top_n`, and
annotates each retained intent with the slots of the first parser in
priority order whose `get_slots` is non-empty for it (the sentinel gets no
slots); on the two test parsers with top_n = 3 this yields exactly the
ranked result asserted by `test_should_parse_top_intents`. -/
theorem parseTopIntents_merges_and_annotates :
    parseTopIntents [firstIntentParser, secondIntentParser] 3 =
        expectedTopResults ∧
      mergedIntents [firstIntentParser, secondIntentParser] =
        [⟨some "intent2", mkRat 3 5⟩, ⟨some "intent1", mkRat 1 2⟩,
         ⟨none, mkRat 3 20⟩, ⟨some "intent3", mkRat 1 20⟩] := by
  constructor
  · decide
  · decide

/-! ### Sequential parsing (C3) -/

/-- C3: `parse` without `top_n` consults the parsers strictly in configured
order — the first parser returning a non-"no intent" result wins outright,
and when every parser returns "no intent" (in particular after fitting on an
empty dataset, when every parser always does) the result is
`empty_result(text)`. -/
theorem parseSequential_first_nonempty_wins
    (parsers : List (String → ParsingResult)) (text : String) :
    ((∀ q ∈ parsers, (q text).intent = none) →
        parseSequential parsers text = emptyResult text) ∧
    ∀ pre p post, parsers = pre ++ p :: post →
      (∀ q ∈ pre, (q text).intent = none) →
      (p text).intent.isSome = true →
      parseSequential parsers text = p text := by
  constructor
  · intro h
    induction parsers with
    | nil => rfl
    | cons q rest ih =>
      have hq : (q text).intent = none := h q (List.mem_cons_self _ _)
      simp only [parseSequential, hq, Option.isSome_none, Bool.false_eq_true,
        if_false]
      exact ih fun r hr => h r (List.mem_cons_of_mem _ hr)
  · intro pre p post hps hpre hp
    subst hps
    induction pre with
    | nil => simp [parseSequential, hp]
    | cons q pre ih =>
      have hq : (q text).intent = none := hpre q (List.mem_cons_self _ _)
      simp only [List.cons_append, parseSequential, hq, Option.isSome_none,
        Bool.false_eq_true, if_false]
      exact ih fun r hr => hpre r (List.mem_cons_of_mem _ hr)

/-- The first mock parser of `test_should_use_parsers_sequentially`: always
returns the empty result. -/
def seqFirstParser : String → ParsingResult := fun text => emptyResult text

/-- The second mock parser of `test_should_use_parsers_sequentially`:
returns `dummy_intent_1` with probability 0.7 and one slot on the input
"hello world", the empty result otherwise. -/
def seqSecondParser : String → ParsingResult := fun text =>
  if text = "hello world" then
    ⟨text, some ⟨some "dummy_intent_1", mkRat 7 10⟩,
      [⟨6, 11, "world", "mocked_entity", "mocked_slot_name"⟩]⟩
  else emptyResult text

/-- Witness for C3: with the two mock parsers of
`test_should_use_parsers_sequentially` on "hello world", the second parser's
result wins. -/
theorem parseSequential_first_nonempty_wins_witness :
    parseSequential [seqFirstParser, seqSecondParser] "hello world" =
      seqSecondParser "hello world" :=
  (parseSequential_first_nonempty_wins [seqFirstParser, seqSecondParser]
        "hello world").2
    [seqFirstParser] seqSecondParser [] rfl
    (fun q hq => by
      rcases List.mem_singleton.mp hq with rfl
      rfl)
    (by decide)

/-! ### Partial retraining (C4) -/

/-- C4: fitting the engine drives each composite parser's `fit`; with
`force_retrain = false` a parser whose first sub-unit is already fitted
(call count 0) and whose second is not ends with the first sub-unit
untouched (count still 0) and the second fitted exactly once; with
`force_retrain = true` both sub-units of any parser are refit exactly once,
regardless of prior state. -/
theorem engineFitParsers_partial_retrain (p : TestIntentParser)
    (h1 : p.sub_unit_1 = ⟨true, 0⟩) (h2 : p.sub_unit_2 = ⟨false, 0⟩) :
    engineFitParsers [p] false = [⟨⟨true, 0⟩, ⟨true, 1⟩⟩] ∧
    ∀ q : TestIntentParser,
      engineFitParsers [q] true =
        [⟨⟨true, q.sub_unit_1.calls + 1⟩, ⟨true, q.sub_unit_2.calls + 1⟩⟩] := by
  constructor
  · simp [engineFitParsers, TestIntentParser.fit, h1, h2]
  · intro q
    simp [engineFitParsers, TestIntentParser.fit]

/-- Witness for C4: the exact starting state of
`test_should_retrain_only_non_trained_subunits`. -/
theorem engineFitParsers_partial_retrain_witness :
    engineFitParsers [⟨⟨true, 0⟩, ⟨false, 0⟩⟩] false =
      [⟨⟨true, 0⟩, ⟨true, 1⟩⟩] :=
  (engineFitParsers_partial_retrain ⟨⟨true, 0⟩, ⟨false, 0⟩⟩ rfl rfl).1

/-! ### Config round-trip (C7) -/

lemma NLUEngineConfig.fromDict_toDict (c : NLUEngineConfig) :
    NLUEngineConfig.fromDict c.toDict = c := by
  cases c with
  | mk configs =>
    simp only [NLUEngineConfig.toDict, NLUEngineConfig.fromDict, List.map_map]
    congr 1
    have hid : (parserConfigFromDict ∘ ParserConfig.toDict) = id := by
      funext x
      cases x
      rfl
    rw [hid, List.map_id]

/-- C7: every dict produced by `NLUEngineConfig.to_dict` carries the
`unit_name` discriminator, and `from_dict` strips it and reconstructs a
config whose `to_dict` reproduces the dict — the ordered list of intent
parser configs round-trips. -/
theorem NLUEngineConfig_dict_roundtrip (c : NLUEngineConfig) :
    (c.toDict).unit_name = "nlu_engine" ∧
      (NLUEngineConfig.fromDict c.toDict).toDict = c.toDict := by
  exact ⟨rfl, by rw [NLUEngineConfig.fromDict_toDict]⟩

/-! ### Engine lifecycle (C9) -/

/-- C9: a freshly constructed engine is not fitted and `parse` on it raises
`NotTrained`; after a successful `fit` (with at least one configured parser)
the engine is fitted. -/
theorem engine_notTrained_lifecycle (config : NLUEngineConfig) (text : String)
    (metadata : DatasetMetadata)
    (train : ParserConfig → List (String × ParsingResult)) :
    (newEngine config).fitted = false ∧
    (newEngine config).parse text = .error .notTrained ∧
    (config.intent_parsers_configs ≠ [] →
      ((newEngine config).fit metadata train).fitted = true) := by
  refine ⟨rfl, rfl, fun h => ?_⟩
  cases hc : config.intent_parsers_configs with
  | nil => exact absurd hc h
  | cons c cs =>
    simp [newEngine, Engine.fit, Engine.fitted, hc, List.all_eq_true]

/-- Witness for C9: the default two-parser configuration. -/
theorem engine_notTrained_lifecycle_witness :
    (newEngine ⟨[⟨"deterministic_intent_parser"⟩,
        ⟨"probabilistic_intent_parser"⟩]⟩).parse "foobar" =
        .error .notTrained ∧
      ((newEngine ⟨[⟨"deterministic_intent_parser"⟩,
          ⟨"probabilistic_intent_parser"⟩]⟩).fit ⟨"en"⟩ fun _ => []).fitted =
        true :=
  ⟨(engine_notTrained_lifecycle ⟨[⟨"deterministic_intent_parser"⟩,
      ⟨"probabilistic_intent_parser"⟩]⟩ "foobar" ⟨"en"⟩ fun _ => []).2.1,
   (engine_notTrained_lifecycle ⟨[⟨"deterministic_intent_parser"⟩,
      ⟨"probabilistic_intent_parser"⟩]⟩ "foobar" ⟨"en"⟩ fun _ => []).2.2
     (by decide)⟩

/-! ### Persist-time name uniquification (C6) -/

lemma uniquifyAux_length (l seen : List String) :
    (uniquifyAux seen l).length = l.length := by
  induction l generalizing seen with
  | nil => rfl
  | cons n rest ih => simp [uniquifyAux, ih]

lemma uniquifyAux_append (pre : List String) :
    ∀ (seen post : List String),
      uniquifyAux seen (pre ++ post) =
        uniquifyAux seen pre ++ uniquifyAux (seen ++ pre) post := by
  induction pre with
  | nil => intro seen post; simp [uniquifyAux]
  | cons n pre ih =>
    intro seen post
    simp only [List.cons_append, uniquifyAux, List.append_eq]
    rw [ih (seen ++ [n]) post, List.append_assoc, List.singleton_append]

lemma getD_append_cons_length (l₁ : List String) (x : String) (l₂ : List String) :
    (l₁ ++ x :: l₂).getD l₁.length "" = x := by
  rw [List.getD_eq_getElem?_getD, List.getElem?_append_right (le_refl _)]
  simp

lemma zipDirs_map_metadata :
    ∀ (dirs : List String) (units : List ParserUnit),
      dirs.length = units.length →
      ((dirs.zip units).map fun du =>
          (⟨du.1, du.2.unitName, du.2.model⟩ : ParserDirFile)).map
        (·.metadataUnitName) = units.map (·.unitName) := by
  intro dirs
  induction dirs with
  | nil =>
    intro units h
    cases units with
    | nil => rfl
    | cons u us => cases h
  | cons d ds ih =>
    intro units h
    cases units with
    | nil => cases h
    | cons u us =>
      simp only [List.zip_cons_cons, List.map_cons]
      rw [ih us (by simpa using h)]

lemma persist_parserDirs_names (e : Engine) :
    e.persist.parserDirs.map (·.metadataUnitName) =
      e.intentParsers.map (·.unitName) := by
  have hlen : (uniquifyNames (e.intentParsers.map (·.unitName))).length =
      e.intentParsers.length := by
    rw [uniquifyNames, uniquifyAux_length, List.length_map]
  exact zipDirs_map_metadata _ e.intentParsers (by rw [hlen])

/-- C6: at persist time the parser storage directory names are the
uniquified unit names — an occurrence of unit name `n` preceded by `k`
earlier occurrences of `n` is stored under `n` when `k = 0` and under
`n_(k+1)` otherwise — while the `unit_name` recorded in each persisted
unit's metadata remains the unsuffixed in-memory unit name. -/
theorem persist_uniquifies_dir_names (e : Engine) (pre : List String)
    (n : String) (post : List String)
    (h : e.intentParsers.map (·.unitName) = pre ++ n :: post) :
    (e.persist.intent_parsers.getD pre.length "" =
      if countOcc n pre = 0 then n
      else n ++ "_" ++ toString (countOcc n pre + 1)) ∧
    (e.persist.parserDirs.map (·.metadataUnitName)).getD pre.length "" = n := by
  constructor
  · have hdirs : e.persist.intent_parsers =
        uniquifyNames (e.intentParsers.map (·.unitName)) := rfl
    rw [hdirs, h, uniquifyNames, uniquifyAux_append, List.nil_append]
    have hlen : (uniquifyAux [] pre).length = pre.length :=
      uniquifyAux_length pre []
    rw [uniquifyAux]
    rw [← hlen, getD_append_cons_length]
    by_cases h0 : countOcc n pre = 0
    · simp [h0]
    · have : countOcc n pre + 1 ≠ 1 := by omega
      simp [h0, this]
  · rw [persist_parserDirs_names, h, getD_append_cons_length]

/-- Witness for C6: two parsers both named `test_intent_parser1`
(`test_should_serialize_duplicated_intent_parsers`): the second is stored
under `test_intent_parser1_2` while its metadata keeps
`test_intent_parser1`. -/
theorem persist_uniquifies_dir_names_witness :
    ((Engine.mk ⟨[⟨"test_intent_parser1"⟩, ⟨"test_intent_parser1"⟩]⟩
        [⟨"test_intent_parser1", true, []⟩, ⟨"test_intent_parser1", true, []⟩]
        (some ⟨"en"⟩)).persist.intent_parsers.getD 1 "" =
      "test_intent_parser1_2") ∧
    ((Engine.mk ⟨[⟨"test_intent_parser1"⟩, ⟨"test_intent_parser1"⟩]⟩
        [⟨"test_intent_parser1", true, []⟩, ⟨"test_intent_parser1", true, []⟩]
        (some ⟨"en"⟩)).persist.parserDirs.map
        (·.metadataUnitName)).getD 1 "" = "test_intent_parser1" := by
  have h := persist_uniquifies_dir_names
    (Engine.mk ⟨[⟨"test_intent_parser1"⟩, ⟨"test_intent_parser1"⟩]⟩
      [⟨"test_intent_parser1", true, []⟩, ⟨"test_intent_parser1", true, []⟩]
      (some ⟨"en"⟩))
    ["test_intent_parser1"] "test_intent_parser1" [] (by decide)
  simpa using h

/-! ### Serialization round-trip (C5) -/

lemma find_parserDir (pairs : List (String × ParserUnit)) (d : String)
    (u : ParserUnit) (hmem : (d, u) ∈ pairs)
    (hnodup : (pairs.map Prod.fst).Nodup) :
    ((pairs.map fun du =>
        (⟨du.1, du.2.unitName, du.2.model⟩ : ParserDirFile)).find?
      fun f => f.dirName = d) = some ⟨d, u.unitName, u.model⟩ := by
  induction pairs with
  | nil => cases hmem
  | cons p rest ih =>
    obtain ⟨d₀, u₀⟩ := p
    by_cases hd : d₀ = d
    · subst hd
      have heq : u = u₀ := by
        rcases List.mem_cons.mp hmem with h | h
        · exact (Prod.mk.injEq .. ▸ h).2
        · exact absurd (List.mem_map_of_mem Prod.fst h)
            (by simpa using (List.nodup_cons.mp hnodup).1)
      subst heq
      simp [List.find?]
    · have hmem' : (d, u) ∈ rest := by
        rcases List.mem_cons.mp hmem with h | h
        · exact absurd (congrArg Prod.fst h).symm hd
        · exact h
      have := ih hmem' (List.nodup_cons.mp hnodup).2
      simp [List.find?, hd, this]

lemma loadParserUnits_zip (p : PersistedEngine)
    (pairs : List (String × ParserUnit))
    (hdirs : p.parserDirs = pairs.map fun du => ⟨du.1, du.2.unitName, du.2.model⟩)
    (hnodup : (pairs.map Prod.fst).Nodup)
    (hfit : ∀ x ∈ pairs, (x.2).fitted = true) :
    ∀ sub : List (String × ParserUnit), (∀ x ∈ sub, x ∈ pairs) →
      loadParserUnits p (sub.map Prod.fst) = .ok (sub.map Prod.snd) := by
  intro sub
  induction sub with
  | nil => intro _; rfl
  | cons x rest ih =>
    intro hsub
    obtain ⟨d, u⟩ := x
    have hx := hsub _ (List.mem_cons_self _ _)
    have hload : loadParserUnit p d = .ok ⟨u.unitName, true, u.model⟩ := by
      unfold loadParserUnit
      rw [hdirs, find_parserDir pairs d u hx hnodup]
    have hu : (⟨u.unitName, true, u.model⟩ : ParserUnit) = u := by
      have := hfit _ hx
      cases u
      simp_all
    have hrest := ih fun y hy => hsub y (List.mem_cons_of_mem _ hy)
    simp only [List.map_cons, loadParserUnits, hload, hrest, hu]

/-- C5: persisting a fit engine and loading it back yields the identical
engine — hence the same `parse` result on every text — and the byte-array
form (`to_byte_array` / `from_byte_array`, the same archive in memory)
round-trips identically.  The `Nodup` hypothesis states that the uniquified
storage directory names do not collide (on a filesystem, two subdirectories
cannot share a name). -/
theorem engine_roundtrip (e : Engine) (hfit : e.fitted = true)
    (hnodup : e.persist.intent_parsers.Nodup) :
    engineFromPath e.persist = .ok e ∧
    engineFromByteArray e.toByteArray = .ok e ∧
    ∀ text, (engineFromPath e.persist).map (fun l => l.parse text) =
      .ok (e.parse text) := by
  have hlen : (uniquifyNames (e.intentParsers.map (·.unitName))).length =
      e.intentParsers.length := by
    rw [uniquifyNames, uniquifyAux_length, List.length_map]
  have hfst : ((uniquifyNames (e.intentParsers.map (·.unitName))).zip
      e.intentParsers).map Prod.fst =
      uniquifyNames (e.intentParsers.map (·.unitName)) :=
    List.map_fst_zip _ _ (le_of_eq hlen)
  have hsnd : ((uniquifyNames (e.intentParsers.map (·.unitName))).zip
      e.intentParsers).map Prod.snd = e.intentParsers :=
    List.map_snd_zip _ _ (ge_of_eq hlen)
  have hdirs : e.persist.parserDirs =
      ((uniquifyNames (e.intentParsers.map (·.unitName))).zip
        e.intentParsers).map fun du => ⟨du.1, du.2.unitName, du.2.model⟩ := rfl
  have hints : e.persist.intent_parsers =
      ((uniquifyNames (e.intentParsers.map (·.unitName))).zip
        e.intentParsers).map Prod.fst := by
    rw [hfst]; rfl
  have hall : ∀ x ∈ ((uniquifyNames (e.intentParsers.map (·.unitName))).zip
      e.intentParsers), (x.2).fitted = true := by
    intro x hx
    have hx2 : x.2 ∈ e.intentParsers := (List.of_mem_zip hx).2
    have := (Bool.and_eq_true _ _ |>.mp hfit).2
    exact (List.all_eq_true.mp this) x.2 hx2
  have hload : loadParserUnits e.persist e.persist.intent_parsers =
      .ok e.intentParsers := by
    rw [hints, loadParserUnits_zip e.persist _ hdirs
      (by rw [← hints]; exact hnodup) hall _ (fun x hx => hx)]
    rw [hsnd]
  have hpath : engineFromPath e.persist = .ok e := by
    rw [engineFromPath.eq_def, hload]
    have hconf : NLUEngineConfig.fromDict e.persist.config = e.config :=
      NLUEngineConfig.fromDict_toDict e.config
    cases e with
    | mk config parsers metadata =>
      simp only at hconf ⊢
      rw [hconf]
      rfl
  refine ⟨hpath, hpath, fun text => by rw [hpath]; rfl⟩

/-- Witness for C5: a concrete one-parser fit engine round-trips. -/
theorem engine_roundtrip_witness :
    engineFromPath (Engine.mk ⟨[⟨"test_intent_parser1"⟩]⟩
        [⟨"test_intent_parser1", true,
          [("hi", ⟨"hi", some ⟨some "greet", 1⟩, []⟩)]⟩]
        (some ⟨"en"⟩)).persist =
      .ok (Engine.mk ⟨[⟨"test_intent_parser1"⟩]⟩
        [⟨"test_intent_parser1", true,
          [("hi", ⟨"hi", some ⟨some "greet", 1⟩, []⟩)]⟩]
        (some ⟨"en"⟩)) :=
  (engine_roundtrip _ (by decide) (by decide)).1
